import Mathlib

/-!
Verification of the `schema_validation` repository (core.py, utils.py).

The development shallowly embeds the Python source:

* JSON-compatible values are the inductive type `J`.  Python `int` is `J.int`;
  Python `float` is `J.flt m e`, denoting the dyadic rational `m / 2^e`
  (every IEEE float is such a number; all numeric literals appearing in the
  claims are dyadic).  Python `dict` is an association list with (as in
  Python) unique keys; insertion order is kept, as Python dicts keep it.
* `utils.hash_schema` serializes with `json.dumps(schema, sort_keys=True)`
  and digests with SHA-256.  `json.dumps` with sorted keys is an injective
  encoding of the key-sorted canonical form of the value, and SHA-256 is
  treated as collision-free, so the digest is modelled as the canonical form
  itself: `hash_schema = canon`, which recursively sorts every mapping's
  entries by key (code-point order, exactly Python's `sort_keys=True`).
* Graph construction (`Schema.__init__`, `Schema._recursively_create_children`,
  `Schema.initialize_child`) is the fuel-indexed function `build`; Python
  exceptions are the `Except PyErr` monad, and running out of fuel is
  `Option.none` (the termination theorem shows a computable fuel bound at
  which this never happens).
* Validation (`Schema.validate` and the `*Validator.validate` methods) is
  `validateValue`.  Several validator methods call attributes that do not
  exist (`make_child`, `self.get`); those calls are modelled as raising
  `PyErr.attrError`, exactly as CPython would.
-/

inductive J where
  | null : J
  | bool (b : Bool) : J
  | int (n : Int) : J
  | flt (m : Int) (e : Nat) : J
  | str (s : String) : J
  | arr (xs : List J) : J
  | obj (kvs : List (String × J)) : J

mutual

/-- Structural (syntactic) equality test on JSON values. -/
def beqJ : J → J → Bool
  | .null, .null => true
  | .bool a, .bool b => a == b
  | .int a, .int b => a == b
  | .flt m e, .flt m2 e2 => m == m2 && e == e2
  | .str a, .str b => a.data == b.data
  | .arr xs, .arr ys => beqL xs ys
  | .obj l, .obj m => beqE l m
  | _, _ => false
termination_by structural a => a

def beqL : List J → List J → Bool
  | [], [] => true
  | x :: xs, y :: ys => beqJ x y && beqL xs ys
  | _, _ => false
termination_by structural l => l

def beqE : List (String × J) → List (String × J) → Bool
  | [], [] => true
  | (k, v) :: l, (k2, v2) :: m => k.data == k2.data && beqJ v v2 && beqE l m
  | _, _ => false
termination_by structural l => l

end

mutual

theorem beqJ_iff : ∀ a b : J, beqJ a b = true ↔ a = b
  | .null, b => by cases b <;> simp [beqJ]
  | .bool a, b => by cases b <;> simp [beqJ]
  | .int a, b => by cases b <;> simp [beqJ]
  | .flt m e, b => by cases b <;> simp [beqJ]
  | .str a, b => by
      cases b <;> simp [beqJ]
      exact ⟨fun h => String.ext h, fun h => by cases h; rfl⟩
  | .arr xs, b => by
      cases b <;> simp [beqJ]
      exact (beqL_iff xs _)
  | .obj l, b => by
      cases b <;> simp [beqJ]
      exact (beqE_iff l _)
termination_by structural a => a

theorem beqL_iff : ∀ xs ys : List J, beqL xs ys = true ↔ xs = ys
  | [], ys => by cases ys <;> simp [beqL]
  | x :: xs, ys => by
      cases ys with
      | nil => simp [beqL]
      | cons y ys =>
          simp only [beqL, Bool.and_eq_true, beqJ_iff x y, beqL_iff xs ys,
            List.cons.injEq]
termination_by structural xs => xs

theorem beqE_iff : ∀ l m : List (String × J), beqE l m = true ↔ l = m
  | [], m => by cases m <;> simp [beqE]
  | (k, v) :: l, m => by
      cases m with
      | nil => simp [beqE]
      | cons p m =>
          obtain ⟨k2, v2⟩ := p
          simp only [beqE, Bool.and_eq_true, beq_iff_eq, beqJ_iff v v2,
            beqE_iff l m, List.cons.injEq, Prod.mk.injEq]
          constructor
          · rintro ⟨⟨hk, hv⟩, hm⟩
            exact ⟨⟨String.ext hk, hv⟩, hm⟩
          · rintro ⟨⟨hk, hv⟩, hm⟩
            cases hk; exact ⟨⟨rfl, hv⟩, hm⟩
termination_by structural l => l

end

instance : DecidableEq J := fun a b => decidable_of_iff (beqJ a b = true) (beqJ_iff a b)

/-- Code-point strict order on strings, as Python compares `str` keys. -/
def ltChars : List Char → List Char → Bool
  | [], [] => false
  | [], _ :: _ => true
  | _ :: _, [] => false
  | a :: as, b :: bs =>
      Nat.blt a.toNat b.toNat || (a.toNat == b.toNat && ltChars as bs)

def leChars (a b : List Char) : Bool := !(ltChars b a)

theorem ltChars_asymm : ∀ a b, ltChars a b = true → ltChars b a = true → False
  | [], [], h, _ => by simp [ltChars] at h
  | [], _ :: _, _, h2 => by simp [ltChars] at h2
  | _ :: _, [], h, _ => by simp [ltChars] at h
  | a :: as, b :: bs, h, h2 => by
      simp only [ltChars, Bool.or_eq_true, Bool.and_eq_true, Nat.blt_eq,
        beq_iff_eq] at h h2
      rcases h with h | ⟨he, h⟩ <;> rcases h2 with h2 | ⟨he2, h2⟩
      · omega
      · omega
      · omega
      · exact ltChars_asymm as bs h h2

theorem ltChars_connex : ∀ a b, a ≠ b → ltChars a b = true ∨ ltChars b a = true
  | [], [], h => absurd rfl h
  | [], _ :: _, _ => Or.inl (by simp [ltChars])
  | _ :: _, [], _ => Or.inr (by simp [ltChars])
  | a :: as, b :: bs, h => by
      rcases Nat.lt_trichotomy a.toNat b.toNat with hlt | heq | hgt
      · exact Or.inl (by simp [ltChars, Nat.blt_eq, hlt])
      · have hc : a = b := Char.ext (UInt32.toNat.inj heq)
        subst hc
        have hne : as ≠ bs := fun hh => h (by rw [hh])
        rcases ltChars_connex as bs hne with h1 | h1
        · exact Or.inl (by simp [ltChars, h1])
        · exact Or.inr (by simp [ltChars, h1])
      · exact Or.inr (by simp [ltChars, Nat.blt_eq, hgt])

theorem ltChars_trans : ∀ a b c, ltChars a b = true → ltChars b c = true →
    ltChars a c = true
  | [], [], [], h, _ => by simp [ltChars] at h
  | [], _ :: _, [], _, h2 => by simp [ltChars] at h2
  | [], _, _ :: _, _, _ => by simp [ltChars]
  | _ :: _, [], _, h, _ => by simp [ltChars] at h
  | _ :: _, _ :: _, [], _, h2 => by simp [ltChars] at h2
  | a :: as, b :: bs, c :: cs, h, h2 => by
      simp only [ltChars, Bool.or_eq_true, Bool.and_eq_true, Nat.blt_eq,
        beq_iff_eq] at h h2 ⊢
      rcases h with h | ⟨he, h⟩
      · rcases h2 with h2 | ⟨he2, h2⟩
        · exact Or.inl (Nat.lt_trans h h2)
        · exact Or.inl (he2 ▸ h)
      · rcases h2 with h2 | ⟨he2, h2⟩
        · exact Or.inl (he ▸ h2)
        · exact Or.inr ⟨he.trans he2, ltChars_trans as bs cs h h2⟩

/-- Non-strict code-point order on entry keys of a mapping.  This is the
order `json.dumps(.., sort_keys=True)` sorts by. -/
def entryLe (p q : String × J) : Prop := ltChars q.1.data p.1.data = false

/-- Strict code-point order on entry keys. -/
def entryLt (p q : String × J) : Prop := ltChars p.1.data q.1.data = true

instance : DecidableRel entryLe := fun p q =>
  inferInstanceAs (Decidable (ltChars q.1.data p.1.data = false))

instance : DecidableRel entryLt := fun p q =>
  inferInstanceAs (Decidable (ltChars p.1.data q.1.data = true))

instance : IsTotal (String × J) entryLe := by
  constructor
  intro p q
  by_cases h : ltChars q.1.data p.1.data = true
  · by_cases h2 : ltChars p.1.data q.1.data = true
    · exact absurd (ltChars_asymm _ _ h h2) (fun f => f)
    · exact Or.inr (by simpa [entryLe] using h2)
  · exact Or.inl (by simpa [entryLe] using h)

instance : IsTrans (String × J) entryLe := by
  constructor
  intro a b c hab hbc
  simp only [entryLe] at hab hbc ⊢
  by_contra hca
  have hca' : ltChars c.1.data a.1.data = true := by
    cases h : ltChars c.1.data a.1.data
    · exact absurd h hca
    · rfl
  by_cases he : c.1.data = b.1.data
  · rw [he] at hca'
    exact absurd hca' (by simp [hab])
  · rcases ltChars_connex _ _ he with h1 | h1
    · exact absurd h1 (by simp [hbc])
    · have h2 := ltChars_trans _ _ _ h1 hca'
      exact absurd h2 (by simp [hab])

instance : IsAntisymm (String × J) entryLt := by
  constructor
  intro a b h1 h2
  exact absurd (ltChars_asymm _ _ h1 h2) (fun f => f)

/-- Sort the entries of a mapping by key: the model of the key ordering done
by `json.dumps(schema, sort_keys=True)` inside `utils.hash_schema`. -/
def sortE (l : List (String × J)) : List (String × J) :=
  List.insertionSort entryLe l

theorem sortE_perm (l : List (String × J)) : List.Perm (sortE l) l :=
  List.perm_insertionSort entryLe l

theorem sortE_sorted (l : List (String × J)) : List.Sorted entryLe (sortE l) :=
  List.sorted_insertionSort entryLe l

theorem entryLt_of_le_of_ne {p q : String × J} (hle : entryLe p q)
    (hne : p.1 ≠ q.1) : entryLt p q := by
  have hd : p.1.data ≠ q.1.data := fun h => hne (String.ext h)
  rcases ltChars_connex _ _ hd with h1 | h1
  · exact h1
  · exact absurd h1 (by simpa [entryLe] using hle)

theorem sorted_strict_of_nodup {x : List (String × J)}
    (hx : (x.map Prod.fst).Nodup) (hsor : List.Sorted entryLe x) :
    List.Pairwise entryLt x := by
  have hne : x.Pairwise (fun p q : String × J => p.1 ≠ q.1) :=
    (List.pairwise_map).1 hx
  exact (hsor.and hne).imp (fun h => entryLt_of_le_of_ne h.1 h.2)

theorem sortE_eq_of_perm {l m : List (String × J)} (h : List.Perm l m)
    (hk : (l.map Prod.fst).Nodup) : sortE l = sortE m := by
  have hperm : List.Perm (sortE l) (sortE m) :=
    (sortE_perm l).trans (h.trans (sortE_perm m).symm)
  have hkl : ((sortE l).map Prod.fst).Nodup :=
    (((sortE_perm l).map Prod.fst).nodup_iff).2 hk
  have hkm : ((sortE m).map Prod.fst).Nodup :=
    ((hperm.map Prod.fst).nodup_iff).1 hkl
  exact List.eq_of_perm_of_sorted hperm
    (sorted_strict_of_nodup hkl (sortE_sorted l))
    (sorted_strict_of_nodup hkm (sortE_sorted m))

mutual

/-- Canonical form of a JSON value: every mapping's entries sorted by key,
recursively.  This models the output of
`json.dumps(schema, sort_keys=True)` inside `utils.hash_schema`
(`json.dumps` is injective on values in this form, and the final SHA-256
digest is taken as collision-free, so the canonical form itself serves as
the digest in the model). -/
def canon : J → J
  | .null => .null
  | .bool b => .bool b
  | .int n => .int n
  | .flt m e => .flt m e
  | .str s => .str s
  | .arr xs => .arr (canonL xs)
  | .obj kvs => .obj (sortE (canonE kvs))
termination_by structural j => j

def canonL : List J → List J
  | [] => []
  | x :: xs => canon x :: canonL xs
termination_by structural l => l

def canonE : List (String × J) → List (String × J)
  | [] => []
  | (k, v) :: l => (k, canon v) :: canonE l
termination_by structural l => l

end

/-- The model of `utils.hash_schema`: see `canon`. -/
def hash_schema (s : J) : J := canon s

theorem canonL_eq_map : ∀ xs : List J, canonL xs = xs.map canon
  | [] => rfl
  | x :: xs => by rw [canonL, canonL_eq_map xs, List.map_cons]

theorem canonE_eq_map : ∀ l : List (String × J),
    canonE l = l.map (fun p => (p.1, canon p.2))
  | [] => rfl
  | (k, v) :: l => by rw [canonE, canonE_eq_map l, List.map_cons]

theorem canonE_keys (l : List (String × J)) :
    (canonE l).map Prod.fst = l.map Prod.fst := by
  rw [canonE_eq_map, List.map_map]
  rfl

/-- Check that the keys of one mapping's entry list are pairwise distinct
(Python dicts cannot hold duplicate keys, so every fragment coming from a
real document satisfies this, recursively: see `nodupKeys`). -/
def keysNodupB : List (String × J) → Bool
  | [] => true
  | (k, _) :: rest => !(rest.any (fun q => q.1.data == k.data)) && keysNodupB rest

theorem keysNodupB_iff : ∀ l : List (String × J),
    keysNodupB l = true ↔ (l.map Prod.fst).Nodup
  | [] => by simp [keysNodupB]
  | (k, v) :: rest => by
      simp only [keysNodupB, Bool.and_eq_true, Bool.not_eq_true',
        List.any_eq_false, keysNodupB_iff rest, List.map_cons, List.nodup_cons,
        List.mem_map, beq_iff_eq]
      constructor
      · rintro ⟨h1, h2⟩
        refine ⟨?_, h2⟩
        rintro ⟨q, hq, hqk⟩
        exact h1 q hq (by rw [hqk])
      · rintro ⟨h1, h2⟩
        refine ⟨?_, h2⟩
        intro q hq hdata
        exact h1 ⟨q, hq, String.ext hdata⟩


mutual

/-- Every mapping anywhere inside the value has pairwise-distinct keys.
True of every fragment of a real Python document. -/
def nodupKeys : J → Bool
  | .arr xs => nodupKeysL xs
  | .obj l => keysNodupB l && nodupKeysE l
  | _ => true
termination_by structural j => j

def nodupKeysL : List J → Bool
  | [] => true
  | x :: xs => nodupKeys x && nodupKeysL xs
termination_by structural l => l

def nodupKeysE : List (String × J) → Bool
  | [] => true
  | (_, v) :: l => nodupKeys v && nodupKeysE l
termination_by structural l => l

end

mutual

/-- The second value is the first with the keys of mappings (anywhere inside
it) arbitrarily reordered: scalars are equal, sequences correspond
elementwise in order, and mappings correspond up to a permutation of their
entry lists with equal keys and related values. -/
inductive KeyPerm : J → J → Prop where
  | null : KeyPerm .null .null
  | bool (b : Bool) : KeyPerm (.bool b) (.bool b)
  | int (n : Int) : KeyPerm (.int n) (.int n)
  | flt (m : Int) (e : Nat) : KeyPerm (.flt m e) (.flt m e)
  | str (s : String) : KeyPerm (.str s) (.str s)
  | arr {xs ys : List J} : KeyPermL xs ys → KeyPerm (.arr xs) (.arr ys)
  | obj {l m m2 : List (String × J)} : KeyPermE l m → List.Perm m m2 →
      KeyPerm (.obj l) (.obj m2)

inductive KeyPermL : List J → List J → Prop where
  | nil : KeyPermL [] []
  | cons {x y : J} {xs ys : List J} : KeyPerm x y → KeyPermL xs ys →
      KeyPermL (x :: xs) (y :: ys)

inductive KeyPermE : List (String × J) → List (String × J) → Prop where
  | nil : KeyPermE [] []
  | cons {k : String} {v w : J} {l m : List (String × J)} : KeyPerm v w →
      KeyPermE l m → KeyPermE ((k, v) :: l) ((k, w) :: m)

end

theorem kpe_keys : ∀ {l m : List (String × J)}, KeyPermE l m →
    l.map Prod.fst = m.map Prod.fst
  | _, _, .nil => rfl
  | _, _, .cons _ h => by
      simp only [List.map_cons, List.cons.injEq]
      exact ⟨trivial, kpe_keys h⟩

mutual

theorem canon_eq_of_kp : ∀ {s t : J}, KeyPerm s t → nodupKeys s = true →
    canon s = canon t
  | .null, _, .null, _ => rfl
  | _, _, .bool b, _ => rfl
  | _, _, .int n, _ => rfl
  | _, _, .flt m e, _ => rfl
  | _, _, .str s, _ => rfl
  | .arr xs, _, .arr hl, hg => by
      rw [canon, canon, canonL_eq_of_kpl hl (by simpa [nodupKeys] using hg)]
  | .obj l, _, .obj he hp, hg => by
      have hg1 : keysNodupB l = true := by
        simp only [nodupKeys, Bool.and_eq_true] at hg
        exact hg.1
      have hg2 : nodupKeysE l = true := by
        simp only [nodupKeys, Bool.and_eq_true] at hg
        exact hg.2
      rw [canon, canon]
      congr 1
      rw [canonE_eq_of_kpe he hg2]
      apply sortE_eq_of_perm
      · rw [canonE_eq_map, canonE_eq_map]
        exact hp.map _
      · rw [canonE_keys, ← kpe_keys he]
        exact (keysNodupB_iff l).1 hg1
termination_by structural h => h

theorem canonL_eq_of_kpl : ∀ {xs ys : List J}, KeyPermL xs ys →
    nodupKeysL xs = true → canonL xs = canonL ys
  | _, _, .nil, _ => rfl
  | _ :: xs, _, .cons h hl, hg => by
      simp only [nodupKeysL, Bool.and_eq_true] at hg
      rw [canonL, canonL, canon_eq_of_kp h hg.1, canonL_eq_of_kpl hl hg.2]
termination_by structural h => h

theorem canonE_eq_of_kpe : ∀ {l m : List (String × J)}, KeyPermE l m →
    nodupKeysE l = true → canonE l = canonE m
  | _, _, .nil, _ => rfl
  | (k, v) :: l, _, .cons h he, hg => by
      simp only [nodupKeysE, Bool.and_eq_true] at hg
      rw [canonE, canonE, canon_eq_of_kp h hg.1, canonE_eq_of_kpe he hg.2]
termination_by structural h => h

end

mutual

theorem kp_canon : ∀ s : J, KeyPerm s (canon s)
  | .null => .null
  | .bool b => .bool b
  | .int n => .int n
  | .flt m e => .flt m e
  | .str s => .str s
  | .arr xs => .arr (kpl_canon xs)
  | .obj l => .obj (kpe_canon l) (sortE_perm (canonE l)).symm
termination_by structural s => s

theorem kpl_canon : ∀ xs : List J, KeyPermL xs (canonL xs)
  | [] => .nil
  | x :: xs => .cons (kp_canon x) (kpl_canon xs)
termination_by structural xs => xs

theorem kpe_canon : ∀ l : List (String × J), KeyPermE l (canonE l)
  | [] => .nil
  | (_, v) :: l => .cons (kp_canon v) (kpe_canon l)
termination_by structural l => l

end

theorem perm_map_extract {α β : Type} [DecidableEq α] (f : α → β) :
    ∀ (l m : List α), List.Perm (l.map f) (m.map f) →
    ∃ m2, List.Perm m m2 ∧ List.Forall₂ (fun a b => f a = f b) l m2
  | [], m, h => by
      have hm : m = [] := by
        have h0 := h.symm.eq_nil
        exact List.map_eq_nil_iff.1 h0
      exact ⟨[], by simp [hm], .nil⟩
  | a :: l, m, h => by
      have hmem : f a ∈ m.map f := h.subset (List.mem_cons_self _ _)
      obtain ⟨b, hb, hfb⟩ := List.mem_map.1 hmem
      have hm : List.Perm m (b :: m.erase b) := List.perm_cons_erase hb
      have h2 : List.Perm (f a :: l.map f) (f a :: (m.erase b).map f) := by
        have h3 := h.trans (hm.map f)
        simp only [List.map_cons, hfb] at h3
        exact h3
      obtain ⟨m2, hm2, hf2⟩ := perm_map_extract f l (m.erase b) h2.cons_inv
      exact ⟨b :: m2, hm.trans (hm2.cons b), .cons hfb.symm hf2⟩

mutual

theorem kp_of_canon_eq : ∀ s t : J, canon s = canon t → KeyPerm s t
  | .null, t, h => by
      cases t
      case null => exact .null
      all_goals simp [canon] at h
  | .bool b, t, h => by
      cases t <;> simp [canon] at h
      exact h ▸ .bool b
  | .int n, t, h => by
      cases t <;> simp [canon] at h
      exact h ▸ .int n
  | .flt m e, t, h => by
      cases t <;> simp [canon] at h
      exact h.1 ▸ h.2 ▸ .flt m e
  | .str s, t, h => by
      cases t <;> simp [canon] at h
      exact h ▸ .str s
  | .arr xs, t, h => by
      cases t <;> simp [canon] at h
      case arr ys => exact .arr (kpl_of_canon_eq xs ys h)
  | .obj l, t, h => by
      cases t <;> simp [canon] at h
      case obj m =>
        have hperm : List.Perm (canonE l) (canonE m) := by
          refine (sortE_perm (canonE l)).symm.trans ?_
          rw [h]
          exact sortE_perm (canonE m)
        rw [canonE_eq_map, canonE_eq_map] at hperm
        obtain ⟨m2, hm2, hf2⟩ :=
          perm_map_extract (fun p : String × J => (p.1, canon p.2)) l m hperm
        exact .obj (kpe_of_forall l m2 hf2) hm2.symm
termination_by structural s => s

theorem kpl_of_canon_eq : ∀ xs ys : List J, canonL xs = canonL ys →
    KeyPermL xs ys
  | [], ys, h => by
      cases ys with
      | nil => exact .nil
      | cons y ys => simp [canonL] at h
  | x :: xs, ys, h => by
      cases ys with
      | nil => simp [canonL] at h
      | cons y ys =>
          simp only [canonL, List.cons.injEq] at h
          exact .cons (kp_of_canon_eq x y h.1) (kpl_of_canon_eq xs ys h.2)
termination_by structural xs => xs

theorem kpe_of_forall : ∀ (l m2 : List (String × J)),
    List.Forall₂ (fun p q : String × J => (p.1, canon p.2) = (q.1, canon q.2))
      l m2 → KeyPermE l m2
  | [], m2, h => by
      cases h
      exact .nil
  | (k, v) :: l, m2, h => by
      cases h with
      | cons hpq hrest =>
          rename_i q m2'
          obtain ⟨q1, q2⟩ := q
          simp only [Prod.mk.injEq] at hpq
          cases hpq.1
          exact .cons (kp_of_canon_eq v q2 hpq.2) (kpe_of_forall l m2' hrest)
termination_by structural l => l

end

/-- C3: `hash_schema` (modelled as the key-sorted canonical form, of which
`json.dumps(.., sort_keys=True)` followed by SHA-256 is an injective
encoding) is deterministic (it is a function), and for fragments whose
mappings have no duplicate keys — true of every fragment built from Python
dicts — two fragments receive the same hash exactly when one is the other
with mapping keys arbitrarily reordered (`KeyPerm`).  The forward direction
says hash equality coincides with equality of the canonical key-sorted
serialization and implies equality up to key order, so reordering the
elements of a sequence, whenever it changes the sequence's value, changes
the hash; the backward direction is the key-order invariance of the hash. -/
theorem c3_hash_canonical (s t : J) (hs : nodupKeys s = true) :
    hash_schema s = hash_schema t ↔ KeyPerm s t :=
  ⟨kp_of_canon_eq s t, fun kp => canon_eq_of_kp kp hs⟩

/-- Witness for `c3_hash_canonical` at a concrete pair of fragments: the
second is the first with the keys of both the outer and the nested mapping
reordered, and the theorem's forward direction turns their (decidably
checked) hash equality into the key-permutation relation. -/
theorem c3_hash_canonical_witness :
    KeyPerm
      (J.obj [("b", J.int 2), ("a", J.obj [("d", J.int 3), ("c", J.null)])])
      (J.obj [("a", J.obj [("c", J.null), ("d", J.int 3)]), ("b", J.int 2)]) :=
  (c3_hash_canonical
      (J.obj [("b", J.int 2), ("a", J.obj [("d", J.int 3), ("c", J.null)])])
      (J.obj [("a", J.obj [("c", J.null), ("d", J.int 3)]), ("b", J.int 2)])
      (by decide)).mp (by decide)

/-- Python exceptions that the modelled code can raise.  `schemaValidation`
is the library's own `SchemaValidationError`; the others are builtin Python
exception kinds raised by the modelled operations. -/
inductive PyErr where
  | schemaValidation : PyErr
  | attrError : PyErr
  | typeError : PyErr
  | keyError : PyErr
  | valueError : PyErr
  | notImplemented : PyErr
  deriving DecidableEq

/-- Dictionary lookup, `d[k]` / `d.get(k)` on the modelled dict. -/
def lookupJ : List (String × J) → String → Option J
  | [], _ => none
  | (k2, v) :: rest, k => if k2 == k then some v else lookupJ rest k

/-- Test `k in d` on the modelled dict. -/
def hasKey (l : List (String × J)) (k : String) : Bool :=
  (lookupJ l k).isSome

/-- The validator subclasses of `core.Validator`, in definition order (the
order `Validator.__subclasses__()` yields them in). -/
inductive VClass where
  | objectV | arrayV | numberV | integerV | stringV | nullV | booleanV
  | enumV | multiV | refV | anyOfV | oneOfV | allOfV | notV
  deriving DecidableEq

def allClasses : List VClass :=
  [.objectV, .arrayV, .numberV, .integerV, .stringV, .nullV, .booleanV,
   .enumV, .multiV, .refV, .anyOfV, .oneOfV, .allOfV, .notV]

/-- Test `schema.get('type', None) == s`. -/
def typeIs (l : List (String × J)) (s : String) : Bool :=
  match lookupJ l "type" with
  | some (.str t) => t == s
  | _ => false

/-- The `_matches` classmethod of each validator class, applied to a dict
fragment's entries. -/
def matchesC : VClass → List (String × J) → Bool
  | .objectV, l => typeIs l "object" || hasKey l "properties"
      || hasKey l "additionalProperties"
  | .arrayV, l => typeIs l "array" || hasKey l "items"
  | .numberV, l => typeIs l "number"
  | .integerV, l => typeIs l "integer"
  | .stringV, l => typeIs l "string"
  | .nullV, l => typeIs l "null"
  | .booleanV, l => typeIs l "boolean"
  | .enumV, l => hasKey l "enum"
  | .multiV, l => match lookupJ l "type" with
      | some (.arr _) => true
      | _ => false
  | .refV, l => hasKey l "$ref"
  | .anyOfV, l => hasKey l "anyOf"
  | .oneOfV, l => hasKey l "oneOf"
  | .allOfV, l => hasKey l "allOf"
  | .notV, l => hasKey l "not"

/-- The `recognized_keys` of each validator class, copied from the source —
including `IntegerTypeValidator`'s misspelt `'mimimum'` (the source really
lists `'mimimum'`, not `'minimum'`). -/
def recKeys : VClass → List String
  | .objectV => ["type", "properties", "additionalProperties",
      "patternProperties", "required"]
  | .arrayV => ["type", "items", "minItems", "maxItems", "numItems"]
  | .numberV => ["type", "minimum", "maximum", "default",
      "exclusiveMinimum", "exclusiveMaximum"]
  | .integerV => ["type", "mimimum", "maximum", "default",
      "exclusiveMinimum", "exclusiveMaximum"]
  | .stringV => ["type", "pattern", "format", "minLength", "maxLength",
      "default"]
  | .nullV => ["type"]
  | .booleanV => ["type", "default"]
  | .enumV => ["enum", "default"]
  | .multiV => ["type", "minimum", "maximum"]
  | .refV => ["$ref"]
  | .anyOfV => ["anyOf"]
  | .oneOfV => ["oneOf"]
  | .allOfV => ["allOf"]
  | .notV => ["not"]

/-- The dict comprehension in `Validator._initialize_validators` that keeps
only the keys a class recognizes (`cls_schema`), preserving insertion
order. -/
def restrict (l : List (String × J)) (keys : List String) :
    List (String × J) :=
  l.filter (fun p => keys.contains p.1)

/-- The validators `Validator._initialize_validators` attaches to a node:
every class whose `_matches` accepts the fragment, each holding its
restricted `cls_schema`. -/
def validatorsOf (l : List (String × J)) :
    List (VClass × List (String × J)) :=
  (allClasses.filter (fun c => matchesC c l)).map
    (fun c => (c, restrict l (recKeys c)))

/-- Python `dict.values()`; raises `AttributeError` on a non-dict. -/
def pyValues : J → Except PyErr (List J)
  | .obj l => .ok (l.map Prod.snd)
  | _ => .error .attrError

/-- Python iteration `for x in v`: lists yield their elements, dicts their
keys, strings their one-character substrings; other values raise
`TypeError`. -/
def pyIter : J → Except PyErr (List J)
  | .arr xs => .ok xs
  | .obj l => .ok (l.map (fun p => J.str p.1))
  | .str s => .ok (s.data.map (fun c => J.str (String.mk [c])))
  | _ => .error .typeError

/-- Python `s.split('/')`. -/
def splitSlash : List Char → List (List Char)
  | [] => [[]]
  | c :: rest =>
      match splitSlash rest with
      | [] => [[]]
      | g :: gs => if c == '/' then [] :: g :: gs else (c :: g) :: gs

/-- The lookup loop of `RefValidator.children`: walk the path segments by
dict indexing starting from the root document.  A missing key raises
`KeyError`; indexing a non-dict with a string raises `TypeError`. -/
def refWalk : List String → J → Except PyErr J
  | [], cur => .ok cur
  | k :: rest, .obj l =>
      (match lookupJ l k with
       | some v => refWalk rest v
       | none => .error .keyError)
  | _ :: _, .null => .error .typeError
  | _ :: _, .bool _ => .error .typeError
  | _ :: _, .int _ => .error .typeError
  | _ :: _, .flt _ _ => .error .typeError
  | _ :: _, .str _ => .error .typeError
  | _ :: _, .arr _ => .error .typeError

/-- The body of `RefValidator.children`: split the `$ref` string on `/`,
require the leading `#` (else `ValueError`), then walk from the ROOT
document.  A non-string `$ref` raises `AttributeError` at `.split`. -/
def resolveRef (root : J) (rv : J) : Except PyErr J :=
  match rv with
  | .str s =>
      (match splitSlash s.data with
       | [] => .error .valueError
       | k0 :: rest =>
           if k0 = "#".data then
             refWalk (rest.map (fun g => String.mk g)) root
           else .error .valueError)
  | .null => .error .attrError
  | .bool _ => .error .attrError
  | .int _ => .error .attrError
  | .flt _ _ => .error .attrError
  | .arr _ => .error .attrError
  | .obj _ => .error .attrError

/-- The `children` property of one validator, reading its restricted
`cls_schema`. -/
def childrenC (root : J) : VClass → List (String × J) → Except PyErr (List J)
  | .objectV, cs =>
      match (match lookupJ cs "properties" with
             | some v => pyValues v
             | none => .ok []) with
      | .error e => .error e
      | .ok props =>
          match (match lookupJ cs "patternProperties" with
                 | some v => pyValues v
                 | none => .ok []) with
          | .error e => .error e
          | .ok pprops =>
              .ok (props ++ pprops ++
                (match lookupJ cs "additionalProperties" with
                 | some (.obj al) => [J.obj al]
                 | _ => []))
  | .arrayV, cs => pure (match lookupJ cs "items" with
      | some v => [v]
      | none => [])
  | .refV, cs =>
      match lookupJ cs "$ref" with
      | some r =>
          match resolveRef root r with
          | .error e => .error e
          | .ok t => .ok [t]
      | none => .error .keyError
  | .anyOfV, cs =>
      match lookupJ cs "anyOf" with
      | some v => pyIter v
      | none => .error .keyError
  | .oneOfV, cs =>
      match lookupJ cs "oneOf" with
      | some v => pyIter v
      | none => .error .keyError
  | .allOfV, cs =>
      match lookupJ cs "allOf" with
      | some v => pyIter v
      | none => .error .keyError
  | .notV, cs =>
      match lookupJ cs "not" with
      | some v => pure [v]
      | none => .error .keyError
  | .numberV, _ => .ok []
  | .integerV, _ => .ok []
  | .stringV, _ => .ok []
  | .nullV, _ => .ok []
  | .booleanV, _ => .ok []
  | .enumV, _ => .ok []
  | .multiV, _ => .ok []

/-- Concatenation of all validators' children, in validator order — the
`itertools.chain` in `Schema.children`. -/
def collectChildren (root : J) :
    List (VClass × List (String × J)) → Except PyErr (List J)
  | [] => .ok []
  | (c, cs) :: rest =>
      match childrenC root c cs with
      | .error e => .error e
      | .ok hd =>
          match collectChildren root rest with
          | .error e => .error e
          | .ok tl => .ok (hd ++ tl)

/-- All child fragments of one node's fragment (`Schema.children` before the
`initialize_child` wrapping).  A non-dict fragment raises `AttributeError`
(already in `Validator._initialize_validators`, at `schema.get`). -/
def childFragments (root frag : J) : Except PyErr (List J) :=
  match frag with
  | .obj l => collectChildren root (validatorsOf l)
  | _ => .error .attrError

/-- One `Schema` object in the registry: its content hash (the registry
key), its fragment, and its `parents` list.  Schema objects have no `__eq__`
so Python list membership on `parents` is object identity; within one build,
objects correspond one-to-one to registry keys, so parents are recorded by
key. -/
structure SNode where
  key : J
  frag : J
  pars : List J
  deriving DecidableEq

/-- Mutable state of graph construction: the root's `_registry` (insertion
ordered) and the `seen` set of `_recursively_create_children` (a Python
`set` of hex digests; insertion order is irrelevant to all observations, so
a list suffices). -/
structure BState where
  registry : List SNode
  seen : List J
  deriving DecidableEq

/-- Look a key up in the registry (`key in registry` / `registry[key]`). -/
def findNode : List SNode → J → Option SNode
  | [], _ => none
  | nd :: rest, key => if nd.key = key then some nd else findNode rest key

/-- Append `selfKey` to the parents of the node registered at `key`, unless
already present (`if self not in obj.parents: obj.parents.append(self)`). -/
def bumpNode (key selfKey : J) (nd : SNode) : SNode :=
  if nd.key = key then
    (if selfKey ∈ nd.pars then nd else { nd with pars := nd.pars ++ [selfKey] })
  else nd

def addParent (st : BState) (key selfKey : J) : BState :=
  { st with registry := st.registry.map (bumpNode key selfKey) }

/-- `Schema.initialize_child(schema)` called by the node whose hash is
`selfKey`: hash the child fragment, create-and-register a node for it if the
hash is new (creating a `Schema` for a non-dict fragment raises
`AttributeError` inside `Validator._initialize_validators`), then record the
caller as a parent.  Returns the child's key and its registered fragment. -/
def registerChild (selfKey : J) (f : J) (st : BState) :
    Except PyErr (BState × (J × J)) :=
  match findNode st.registry (canon f) with
  | some nd => .ok (addParent st (canon f) selfKey, (canon f, nd.frag))
  | none =>
      match f with
      | .obj _ =>
          .ok (addParent
            { st with registry := st.registry ++ [⟨canon f, f, []⟩] }
            (canon f) selfKey, (canon f, f))
      | _ => .error .attrError

/-- The list comprehension in `Schema.children`: `initialize_child` for each
child fragment in order, before any recursion happens. -/
def registerAll (selfKey : J) : List J → BState →
    Except PyErr (BState × List (J × J))
  | [], st => .ok (st, [])
  | f :: fs, st =>
      match registerChild selfKey f st with
      | .error e => .error e
      | .ok (st1, kg) =>
          match registerAll selfKey fs st1 with
          | .error e => .error e
          | .ok (st2, kgs) => .ok (st2, kg :: kgs)

/-- The `for child in obj.children:` loop inside the `crawl` closure of
`Schema._recursively_create_children`: skip children whose hash is already
in `seen`, otherwise add the hash to `seen` and recurse (`step` is the
recursive call at the remaining depth).  An exception or fuel exhaustion in
a child aborts the whole loop, as in Python. -/
def crawlKids (step : BState → J → Option (Except PyErr BState)) :
    BState → List (J × J) → Option (Except PyErr BState)
  | st, [] => some (.ok st)
  | st, kg :: rest =>
      if canon kg.2 ∈ st.seen then crawlKids step st rest
      else
        match step { st with seen := st.seen ++ [canon kg.2] } kg.2 with
        | none => none
        | some (.error e) => some (.error e)
        | some (.ok st3) => crawlKids step st3 rest

/-- The `crawl` closure of `Schema._recursively_create_children`, applied to
the node holding `frag`: compute and register all children (phase one, the
`self.children` list comprehension, which calls `initialize_child` on every
child fragment before any recursion), then loop over them with `crawlKids`.
`fuel` counts recursion depth; `none` means fuel ran out (the termination
theorem shows a computable bound at which it never does). -/
def crawl (root : J) : Nat → BState → J → Option (Except PyErr BState)
  | 0, _, _ => none
  | fuel + 1, st, frag =>
      match childFragments root frag with
      | .error e => some (.error e)
      | .ok fs =>
          match registerAll (canon frag) fs st with
          | .error e => some (.error e)
          | .ok (st1, kids) =>
              crawlKids (fun st4 g => crawl root fuel st4 g) st1 kids

/-- `Schema.__init__` on the root document: build the validators (a non-dict
document raises `AttributeError` in `_matches`), register the root under its
own hash, then `_recursively_create_children`. -/
def build (doc : J) (fuel : Nat) : Option (Except PyErr BState) :=
  match doc with
  | .obj _ => crawl doc fuel ⟨[⟨canon doc, doc, []⟩], []⟩ doc
  | _ => some (.error .attrError)

mutual

/-- All subfragments (subtrees) of a JSON value, the value itself included. -/
def subs : J → List J
  | .null => [.null]
  | .bool b => [.bool b]
  | .int n => [.int n]
  | .flt m e => [.flt m e]
  | .str s => [.str s]
  | .arr xs => .arr xs :: subsL xs
  | .obj l => .obj l :: subsE l
termination_by structural j => j

def subsL : List J → List J
  | [] => []
  | x :: xs => subs x ++ subsL xs
termination_by structural l => l

def subsE : List (String × J) → List J
  | [] => []
  | (_, v) :: l => subs v ++ subsE l
termination_by structural l => l

end

/-- Fuel that always suffices to build `doc`: one more than the number of
distinct content hashes of subfragments of the document. -/
def regBound (doc : J) : Nat := ((subs doc).map canon).toFinset.card + 1

def isObj : J → Bool
  | .obj _ => true
  | _ => false

theorem subs_self : ∀ s : J, s ∈ subs s
  | .null => List.mem_singleton.2 rfl
  | .bool _ => List.mem_singleton.2 rfl
  | .int _ => List.mem_singleton.2 rfl
  | .flt _ _ => List.mem_singleton.2 rfl
  | .str _ => List.mem_singleton.2 rfl
  | .arr xs => by rw [subs]; exact List.mem_cons_self _ _
  | .obj l => by rw [subs]; exact List.mem_cons_self _ _

theorem subsL_of_mem : ∀ {xs : List J} {x t : J}, x ∈ xs → t ∈ subs x →
    t ∈ subsL xs
  | [], _, _, hx, _ => absurd hx (List.not_mem_nil _)
  | y :: xs, x, t, hx, ht => by
      rw [subsL, List.mem_append]
      rcases List.mem_cons.1 hx with h | h
      · exact Or.inl (h ▸ ht)
      · exact Or.inr (subsL_of_mem h ht)

theorem subsE_of_mem : ∀ {l : List (String × J)} {k : String} {v t : J},
    (k, v) ∈ l → t ∈ subs v → t ∈ subsE l
  | [], _, _, _, hx, _ => absurd hx (List.not_mem_nil _)
  | (k2, v2) :: l, k, v, t, hx, ht => by
      rw [subsE, List.mem_append]
      rcases List.mem_cons.1 hx with h | h
      · cases h
        exact Or.inl ht
      · exact Or.inr (subsE_of_mem h ht)

mutual

theorem subs_trans : ∀ {s t u : J}, t ∈ subs s → u ∈ subs t → u ∈ subs s
  | .null, t, u, ht, hu => by
      rw [subs] at ht ⊢
      cases List.mem_singleton.1 ht
      exact hu
  | .bool b, t, u, ht, hu => by
      rw [subs] at ht ⊢
      cases List.mem_singleton.1 ht
      exact hu
  | .int n, t, u, ht, hu => by
      rw [subs] at ht ⊢
      cases List.mem_singleton.1 ht
      exact hu
  | .flt m e, t, u, ht, hu => by
      rw [subs] at ht ⊢
      cases List.mem_singleton.1 ht
      exact hu
  | .str s, t, u, ht, hu => by
      rw [subs] at ht ⊢
      cases List.mem_singleton.1 ht
      exact hu
  | .arr xs, t, u, ht, hu => by
      rw [subs] at ht ⊢
      rcases List.mem_cons.1 ht with h | h
      · cases h
        rw [subs] at hu
        exact hu
      · exact List.mem_cons_of_mem _ (subsL_trans h hu)
  | .obj l, t, u, ht, hu => by
      rw [subs] at ht ⊢
      rcases List.mem_cons.1 ht with h | h
      · cases h
        rw [subs] at hu
        exact hu
      · exact List.mem_cons_of_mem _ (subsE_trans h hu)
termination_by structural s => s

theorem subsL_trans : ∀ {xs : List J} {t u : J}, t ∈ subsL xs → u ∈ subs t →
    u ∈ subsL xs
  | [], _, _, ht, _ => absurd ht (by rw [subsL]; exact List.not_mem_nil _)
  | x :: xs, t, u, ht, hu => by
      rw [subsL, List.mem_append] at ht ⊢
      rcases ht with h | h
      · exact Or.inl (subs_trans h hu)
      · exact Or.inr (subsL_trans h hu)
termination_by structural xs => xs

theorem subsE_trans : ∀ {l : List (String × J)} {t u : J}, t ∈ subsE l →
    u ∈ subs t → u ∈ subsE l
  | [], _, _, ht, _ => absurd ht (by rw [subsE]; exact List.not_mem_nil _)
  | (k, v) :: l, t, u, ht, hu => by
      rw [subsE, List.mem_append] at ht ⊢
      rcases ht with h | h
      · exact Or.inl (subs_trans h hu)
      · exact Or.inr (subsE_trans h hu)
termination_by structural l => l

end

theorem lookupJ_mem : ∀ {l : List (String × J)} {k : String} {v : J},
    lookupJ l k = some v → (k, v) ∈ l
  | [], _, _, h => by simp [lookupJ] at h
  | (k2, v2) :: l, k, v, h => by
      rw [lookupJ] at h
      by_cases hk : k2 == k
      · rw [if_pos hk] at h
        cases h
        cases (beq_iff_eq.1 hk)
        exact List.mem_cons_self _ _
      · rw [if_neg hk] at h
        exact List.mem_cons_of_mem _ (lookupJ_mem h)

theorem restrict_mem {l : List (String × J)} {keys : List String}
    {p : String × J} (h : p ∈ restrict l keys) : p ∈ l :=
  List.mem_of_mem_filter h

/-- A value looked up in a node's restricted `cls_schema` is a subfragment
of the node's fragment. -/
theorem lookup_restrict_sub {l : List (String × J)} {keys : List String}
    {k : String} {v : J} (h : lookupJ (restrict l keys) k = some v) :
    v ∈ subs (J.obj l) := by
  have hm : (k, v) ∈ l := restrict_mem (lookupJ_mem h)
  rw [subs]
  exact List.mem_cons_of_mem _ (subsE_of_mem hm (subs_self v))

/-- Invariant of graph construction, relative to the root document:
registry keys are the content hashes of the registered fragments; every
registered fragment is a dict subfragment of the document; no hash is
registered twice; no parent is recorded twice; `seen` holds distinct hashes
of subfragments. -/
structure BInv (root : J) (st : BState) : Prop where
  regKey : ∀ nd ∈ st.registry, nd.key = canon nd.frag
  regSub : ∀ nd ∈ st.registry, nd.frag ∈ subs root
  regObj : ∀ nd ∈ st.registry, isObj nd.frag = true
  regNodup : (st.registry.map SNode.key).Nodup
  parsNodup : ∀ nd ∈ st.registry, nd.pars.Nodup
  seenNodup : st.seen.Nodup
  seenSub : ∀ k ∈ st.seen, k ∈ (subs root).map canon

theorem bumpNode_key (k sk : J) (nd : SNode) : (bumpNode k sk nd).key = nd.key := by
  unfold bumpNode
  by_cases h : nd.key = k
  · rw [if_pos h]
    by_cases h2 : sk ∈ nd.pars
    · rw [if_pos h2]
    · rw [if_neg h2]
  · rw [if_neg h]

theorem bumpNode_frag (k sk : J) (nd : SNode) : (bumpNode k sk nd).frag = nd.frag := by
  unfold bumpNode
  by_cases h : nd.key = k
  · rw [if_pos h]
    by_cases h2 : sk ∈ nd.pars
    · rw [if_pos h2]
    · rw [if_neg h2]
  · rw [if_neg h]

theorem bumpNode_pars (k sk : J) (nd : SNode) :
    (bumpNode k sk nd).pars = nd.pars ∨
      ((bumpNode k sk nd).pars = nd.pars ++ [sk] ∧ sk ∉ nd.pars) := by
  unfold bumpNode
  by_cases h : nd.key = k
  · rw [if_pos h]
    by_cases h2 : sk ∈ nd.pars
    · rw [if_pos h2]
      exact Or.inl rfl
    · rw [if_neg h2]
      exact Or.inr ⟨rfl, h2⟩
  · rw [if_neg h]
    exact Or.inl rfl

theorem addParent_keys (st : BState) (k sk : J) :
    (addParent st k sk).registry.map SNode.key = st.registry.map SNode.key := by
  unfold addParent
  rw [List.map_map]
  apply List.map_congr_left
  intro nd _
  exact bumpNode_key k sk nd

theorem addParent_seen (st : BState) (k sk : J) :
    (addParent st k sk).seen = st.seen := rfl

theorem addParent_inv {root : J} {st : BState} (k sk : J) (h : BInv root st) :
    BInv root (addParent st k sk) := by
  refine ⟨?_, ?_, ?_, ?_, ?_, h.seenNodup, h.seenSub⟩
  · intro nd hnd
    obtain ⟨nd0, hnd0, hb⟩ := List.mem_map.1 hnd
    rw [← hb, bumpNode_key, bumpNode_frag]
    exact h.regKey nd0 hnd0
  · intro nd hnd
    obtain ⟨nd0, hnd0, hb⟩ := List.mem_map.1 hnd
    rw [← hb, bumpNode_frag]
    exact h.regSub nd0 hnd0
  · intro nd hnd
    obtain ⟨nd0, hnd0, hb⟩ := List.mem_map.1 hnd
    rw [← hb, bumpNode_frag]
    exact h.regObj nd0 hnd0
  · rw [addParent_keys]
    exact h.regNodup
  · intro nd hnd
    obtain ⟨nd0, hnd0, hb⟩ := List.mem_map.1 hnd
    rcases bumpNode_pars k sk nd0 with hp | ⟨hp, hmem⟩
    · rw [← hb, hp]
      exact h.parsNodup nd0 hnd0
    · rw [← hb, hp]
      simp only [List.nodup_append, List.nodup_cons, List.not_mem_nil,
        not_false_iff, List.nodup_nil, and_true, true_and]
      constructor
      · exact h.parsNodup nd0 hnd0
      · intro a ha hb2
        rcases List.mem_singleton.1 hb2
        exact hmem ha

theorem findNode_some : ∀ {reg : List SNode} {key : J} {nd : SNode},
    findNode reg key = some nd → nd ∈ reg ∧ nd.key = key
  | [], _, _, h => by simp [findNode] at h
  | nd0 :: reg, key, nd, h => by
      rw [findNode] at h
      by_cases hk : nd0.key = key
      · rw [if_pos hk] at h
        cases h
        exact ⟨List.mem_cons_self _ _, hk⟩
      · rw [if_neg hk] at h
        obtain ⟨h1, h2⟩ := findNode_some h
        exact ⟨List.mem_cons_of_mem _ h1, h2⟩

theorem findNode_none : ∀ {reg : List SNode} {key : J},
    findNode reg key = none → ∀ nd ∈ reg, nd.key ≠ key
  | [], _, _ => by
      intro nd hnd
      exact absurd hnd (List.not_mem_nil _)
  | nd0 :: reg, key, h => by
      rw [findNode] at h
      by_cases hk : nd0.key = key
      · rw [if_pos hk] at h
        cases h
      · rw [if_neg hk] at h
        intro nd hnd
        rcases List.mem_cons.1 hnd with h1 | h1
        · exact h1 ▸ hk
        · exact findNode_none h nd h1


theorem registerChild_spec {root selfKey f : J} {st st2 : BState} {k g : J}
    (hok : registerChild selfKey f st = .ok (st2, (k, g)))
    (hInv : BInv root st) (hf : f ∈ subs root ∨ isObj f = false) :
    BInv root st2 ∧ st2.seen = st.seen ∧ k = canon g ∧ g ∈ subs root ∧
      isObj g = true := by
  unfold registerChild at hok
  cases hfind : findNode st.registry (canon f) with
  | some nd =>
      rw [hfind] at hok
      simp only [Except.ok.injEq, Prod.mk.injEq] at hok
      obtain ⟨hst, hk, hg⟩ := hok
      obtain ⟨hmem, hkey⟩ := findNode_some hfind
      subst hst
      subst hk
      subst hg
      refine ⟨addParent_inv _ _ hInv, rfl, ?_, hInv.regSub nd hmem,
        hInv.regObj nd hmem⟩
      rw [← hkey, hInv.regKey nd hmem]
  | none =>
      rw [hfind] at hok
      cases f with
      | obj lf =>
          simp only [Except.ok.injEq, Prod.mk.injEq] at hok
          obtain ⟨hst, hk, hg⟩ := hok
          subst hst
          subst hk
          subst hg
          have hf2 : J.obj lf ∈ subs root := by
            rcases hf with h | h
            · exact h
            · simp [isObj] at h
          have hnotin : canon (J.obj lf) ∉ st.registry.map SNode.key := by
            intro hmem
            obtain ⟨nd, hnd, hk2⟩ := List.mem_map.1 hmem
            exact findNode_none hfind nd hnd hk2
          have hInv1 : BInv root
              { st with registry :=
                  st.registry ++ [⟨canon (J.obj lf), J.obj lf, []⟩] } := by
            refine ⟨?_, ?_, ?_, ?_, ?_, hInv.seenNodup, hInv.seenSub⟩
            · intro nd hnd
              rcases List.mem_append.1 hnd with h1 | h1
              · exact hInv.regKey nd h1
              · cases List.mem_singleton.1 h1
                rfl
            · intro nd hnd
              rcases List.mem_append.1 hnd with h1 | h1
              · exact hInv.regSub nd h1
              · cases List.mem_singleton.1 h1
                exact hf2
            · intro nd hnd
              rcases List.mem_append.1 hnd with h1 | h1
              · exact hInv.regObj nd h1
              · cases List.mem_singleton.1 h1
                rfl
            · rw [List.map_append]
              simp only [List.map_cons, List.map_nil, List.nodup_append,
                List.nodup_cons, List.not_mem_nil, not_false_iff,
                List.nodup_nil, and_true, true_and]
              refine ⟨hInv.regNodup, ?_⟩
              intro a ha hb
              rcases List.mem_singleton.1 hb
              exact hnotin ha
            · intro nd hnd
              rcases List.mem_append.1 hnd with h1 | h1
              · exact hInv.parsNodup nd h1
              · cases List.mem_singleton.1 h1
                exact List.nodup_nil
          exact ⟨addParent_inv _ _ hInv1, rfl, rfl, hf2, rfl⟩
      | null => cases hok
      | bool b => cases hok
      | int n => cases hok
      | flt m e => cases hok
      | str s2 => cases hok
      | arr xs => cases hok

theorem registerAll_spec {root : J} : ∀ {fs : List J} {selfKey : J}
    {st st1 : BState} {kids : List (J × J)},
    registerAll selfKey fs st = .ok (st1, kids) → BInv root st →
    (∀ f ∈ fs, f ∈ subs root ∨ isObj f = false) →
    BInv root st1 ∧ st1.seen = st.seen ∧
      ∀ kg ∈ kids, kg.1 = canon kg.2 ∧ kg.2 ∈ subs root ∧ isObj kg.2 = true
  | [], selfKey, st, st1, kids, hok, hInv, hfs => by
      rw [registerAll] at hok
      cases hok
      refine ⟨hInv, rfl, ?_⟩
      intro kg hkg
      exact absurd hkg (List.not_mem_nil _)
  | f :: fs, selfKey, st, st1, kids, hok, hInv, hfs => by
      rw [registerAll] at hok
      split at hok
      · cases hok
      · rename_i sta kg0 h1
        split at hok
        · cases hok
        · rename_i stb kgs h2
          simp only [Except.ok.injEq, Prod.mk.injEq] at hok
          obtain ⟨hst, hkids⟩ := hok
          subst hst
          subst hkids
          obtain ⟨k0, g0⟩ := kg0
          obtain ⟨hInva, hseena, hk0, hg0, hobj0⟩ :=
            registerChild_spec h1 hInv (hfs f (List.mem_cons_self _ _))
          obtain ⟨hInvb, hseenb, hkids2⟩ :=
            registerAll_spec h2 hInva
              (fun f2 hf2 => hfs f2 (List.mem_cons_of_mem _ hf2))
          refine ⟨hInvb, hseenb.trans hseena, ?_⟩
          intro kg hkg
          rcases List.mem_cons.1 hkg with h | h
          · cases h
            exact ⟨hk0, hg0, hobj0⟩
          · exact hkids2 kg h

theorem refWalk_sub {root : J} : ∀ {ks : List String} {cur t : J},
    refWalk ks cur = .ok t → cur ∈ subs root → t ∈ subs root
  | [], cur, t, hok, hc => by
      rw [refWalk] at hok
      cases hok
      exact hc
  | k :: rest, cur, t, hok, hc => by
      cases cur with
      | obj l =>
          rw [refWalk] at hok
          cases hlk : lookupJ l k with
          | some v =>
              rw [hlk] at hok
              have hv : v ∈ subs (J.obj l) := by
                rw [subs]
                exact List.mem_cons_of_mem _
                  (subsE_of_mem (lookupJ_mem hlk) (subs_self v))
              exact refWalk_sub hok (subs_trans hc hv)
          | none =>
              rw [hlk] at hok
              cases hok
      | null => cases hok
      | bool b => cases hok
      | int n => cases hok
      | flt m e => cases hok
      | str s => cases hok
      | arr xs => cases hok

theorem resolveRef_sub {root rv t : J} (hok : resolveRef root rv = .ok t) :
    t ∈ subs root := by
  unfold resolveRef at hok
  cases rv with
  | str s =>
      simp only at hok
      cases hsp : splitSlash s.data with
      | nil =>
          rw [hsp] at hok
          cases hok
      | cons k0 rest =>
          rw [hsp] at hok
          simp only at hok
          split at hok
          · exact refWalk_sub hok (subs_self root)
          · cases hok
  | null => cases hok
  | bool b => cases hok
  | int n => cases hok
  | flt m e => cases hok
  | arr xs => cases hok
  | obj l => cases hok

theorem pyValues_sub {v : J} {vs : List J} (hok : pyValues v = .ok vs) :
    ∀ x ∈ vs, x ∈ subs v := by
  cases v with
  | obj l =>
      rw [pyValues] at hok
      cases hok
      intro x hx
      obtain ⟨⟨k, v2⟩, hm, he⟩ := List.mem_map.1 hx
      cases he
      rw [subs]
      exact List.mem_cons_of_mem _ (subsE_of_mem hm (subs_self _))
  | null => cases hok
  | bool b => cases hok
  | int n => cases hok
  | flt m e => cases hok
  | str s => cases hok
  | arr xs => cases hok

theorem pyIter_sub {v : J} {ys : List J} (hok : pyIter v = .ok ys) :
    ∀ y ∈ ys, y ∈ subs v ∨ isObj y = false := by
  cases v with
  | arr xs =>
      rw [pyIter] at hok
      cases hok
      intro y hy
      rw [subs]
      exact Or.inl (List.mem_cons_of_mem _ (subsL_of_mem hy (subs_self y)))
  | obj l =>
      rw [pyIter] at hok
      cases hok
      intro y hy
      obtain ⟨p, _, he⟩ := List.mem_map.1 hy
      cases he
      exact Or.inr rfl
  | str s =>
      rw [pyIter] at hok
      cases hok
      intro y hy
      obtain ⟨c, _, he⟩ := List.mem_map.1 hy
      cases he
      exact Or.inr rfl
  | null => cases hok
  | bool b => cases hok
  | int n => cases hok
  | flt m e => cases hok

theorem childrenC_sub {root : J} {l : List (String × J)}
    {cs : List (String × J)} {c : VClass} {hs : List J}
    (hok : childrenC root c cs = .ok hs)
    (hcs : ∀ k v, lookupJ cs k = some v → v ∈ subs (J.obj l)) :
    ∀ f ∈ hs, f ∈ subs (J.obj l) ∨ f ∈ subs root ∨ isObj f = false := by
  cases c with
  | objectV =>
      rw [childrenC] at hok
      split at hok
      · cases hok
      · rename_i props hprops
        split at hok
        · cases hok
        · rename_i pprops hpprops
          cases hok
          intro f hf
          rcases List.mem_append.1 hf with hf1 | hf1
          · rcases List.mem_append.1 hf1 with hf2 | hf2
            · left
              split at hprops
              · rename_i v hv
                exact subs_trans (hcs _ _ hv) (pyValues_sub hprops f hf2)
              · cases hprops
                exact absurd hf2 (List.not_mem_nil _)
            · left
              split at hpprops
              · rename_i v hv
                exact subs_trans (hcs _ _ hv) (pyValues_sub hpprops f hf2)
              · cases hpprops
                exact absurd hf2 (List.not_mem_nil _)
          · left
            split at hf1
            · rename_i al hv
              cases List.mem_singleton.1 hf1
              exact hcs _ _ hv
            · exact absurd hf1 (List.not_mem_nil _)
  | arrayV =>
      rw [childrenC] at hok
      cases hok
      intro f hf
      split at hf
      · rename_i v hv
        cases List.mem_singleton.1 hf
        exact Or.inl (hcs _ _ hv)
      · exact absurd hf (List.not_mem_nil _)
  | refV =>
      rw [childrenC] at hok
      split at hok
      · rename_i r hr
        split at hok
        · cases hok
        · rename_i t ht
          cases hok
          intro f hf
          cases List.mem_singleton.1 hf
          exact Or.inr (Or.inl (resolveRef_sub ht))
      · cases hok
  | anyOfV =>
      rw [childrenC] at hok
      split at hok
      · rename_i v hv
        intro f hf
        rcases pyIter_sub hok f hf with h | h
        · exact Or.inl (subs_trans (hcs _ _ hv) h)
        · exact Or.inr (Or.inr h)
      · cases hok
  | oneOfV =>
      rw [childrenC] at hok
      split at hok
      · rename_i v hv
        intro f hf
        rcases pyIter_sub hok f hf with h | h
        · exact Or.inl (subs_trans (hcs _ _ hv) h)
        · exact Or.inr (Or.inr h)
      · cases hok
  | allOfV =>
      rw [childrenC] at hok
      split at hok
      · rename_i v hv
        intro f hf
        rcases pyIter_sub hok f hf with h | h
        · exact Or.inl (subs_trans (hcs _ _ hv) h)
        · exact Or.inr (Or.inr h)
      · cases hok
  | notV =>
      rw [childrenC] at hok
      split at hok
      · rename_i v hv
        cases hok
        intro f hf
        cases List.mem_singleton.1 hf
        exact Or.inl (hcs _ _ hv)
      · cases hok
  | numberV =>
      cases hok
      intro f hf
      exact absurd hf (List.not_mem_nil _)
  | integerV =>
      cases hok
      intro f hf
      exact absurd hf (List.not_mem_nil _)
  | stringV =>
      cases hok
      intro f hf
      exact absurd hf (List.not_mem_nil _)
  | nullV =>
      cases hok
      intro f hf
      exact absurd hf (List.not_mem_nil _)
  | booleanV =>
      cases hok
      intro f hf
      exact absurd hf (List.not_mem_nil _)
  | enumV =>
      cases hok
      intro f hf
      exact absurd hf (List.not_mem_nil _)
  | multiV =>
      cases hok
      intro f hf
      exact absurd hf (List.not_mem_nil _)

theorem collectChildren_sub {root : J} {l : List (String × J)} :
    ∀ {vs : List (VClass × List (String × J))} {fs : List J},
    collectChildren root vs = .ok fs →
    (∀ p ∈ vs, ∀ k v, lookupJ p.2 k = some v → v ∈ subs (J.obj l)) →
    ∀ f ∈ fs, f ∈ subs (J.obj l) ∨ f ∈ subs root ∨ isObj f = false
  | [], fs, hok, _ => by
      rw [collectChildren] at hok
      cases hok
      intro f hf
      exact absurd hf (List.not_mem_nil _)
  | (c, cs) :: rest, fs, hok, hcs => by
      rw [collectChildren] at hok
      split at hok
      · cases hok
      · rename_i hd hhd
        split at hok
        · cases hok
        · rename_i tl htl
          cases hok
          intro f hf
          rcases List.mem_append.1 hf with h | h
          · exact childrenC_sub hhd
              (hcs (c, cs) (List.mem_cons_self _ _)) f h
          · exact collectChildren_sub htl
              (fun p hp => hcs p (List.mem_cons_of_mem _ hp)) f h

theorem childFragments_sub {root frag : J} {fs : List J}
    (hok : childFragments root frag = .ok fs) (hfrag : frag ∈ subs root) :
    ∀ f ∈ fs, f ∈ subs root ∨ isObj f = false := by
  cases frag with
  | obj l =>
      rw [childFragments] at hok
      intro f hf
      have h := collectChildren_sub (l := l) hok ?_ f hf
      · rcases h with h | h | h
        · exact Or.inl (subs_trans hfrag h)
        · exact Or.inl h
        · exact Or.inr h
      · intro p hp k v hv
        obtain ⟨c, _, he⟩ := List.mem_map.1 hp
        have hcs : p.2 = restrict l (recKeys c) := by rw [← he]
        rw [hcs] at hv
        exact lookup_restrict_sub hv
  | null => cases hok
  | bool b => cases hok
  | int n => cases hok
  | flt m e => cases hok
  | str s => cases hok
  | arr xs => cases hok

theorem BInv_pushSeen {root : J} {st : BState} {key : J}
    (h : BInv root st) (hk : key ∈ (subs root).map canon)
    (hn : key ∉ st.seen) :
    BInv root { st with seen := st.seen ++ [key] } := by
  refine ⟨h.regKey, h.regSub, h.regObj, h.regNodup, h.parsNodup, ?_, ?_⟩
  · simp only [List.nodup_append, List.nodup_cons, List.not_mem_nil,
      not_false_iff, List.nodup_nil, and_true, true_and]
    refine ⟨h.seenNodup, ?_⟩
    intro a ha hb
    rcases List.mem_singleton.1 hb
    exact hn ha
  · intro k hkm
    rcases List.mem_append.1 hkm with h1 | h1
    · exact h.seenSub k h1
    · rcases List.mem_singleton.1 h1
      exact hk

theorem crawlKids_pres {root : J}
    {step : BState → J → Option (Except PyErr BState)}
    (hstep : ∀ st g st', g ∈ subs root → BInv root st →
      step st g = some (.ok st') →
      BInv root st' ∧ st.seen.length ≤ st'.seen.length) :
    ∀ {kids : List (J × J)} {st st2 : BState},
    crawlKids step st kids = some (.ok st2) → BInv root st →
    (∀ kg ∈ kids, kg.2 ∈ subs root) →
    BInv root st2 ∧ st.seen.length ≤ st2.seen.length
  | [], st, st2, hok, hInv, _ => by
      rw [crawlKids] at hok
      cases hok
      exact ⟨hInv, Nat.le_refl _⟩
  | kg :: rest, st, st2, hok, hInv, hkids => by
      rw [crawlKids] at hok
      split at hok
      · exact crawlKids_pres hstep hok hInv
          (fun kg2 h => hkids kg2 (List.mem_cons_of_mem _ h))
      · rename_i hseen
        split at hok
        · cases hok
        · cases hok
        · rename_i st3 hstep3
          have hg : kg.2 ∈ subs root := hkids kg (List.mem_cons_self _ _)
          have hkey : canon kg.2 ∈ (subs root).map canon :=
            List.mem_map_of_mem canon hg
          have hInv1 := BInv_pushSeen hInv hkey hseen
          obtain ⟨hI3, hlen3⟩ := hstep _ _ _ hg hInv1 hstep3
          obtain ⟨hI2, hlen2⟩ := crawlKids_pres hstep hok hI3
            (fun kg2 h => hkids kg2 (List.mem_cons_of_mem _ h))
          refine ⟨hI2, ?_⟩
          have hx : ({ st with seen := st.seen ++ [canon kg.2] } :
              BState).seen.length = st.seen.length + 1 := by
            simp
          omega

theorem crawl_pres {root : J} : ∀ {fuel : Nat} {st : BState} {frag : J}
    {st2 : BState},
    crawl root fuel st frag = some (.ok st2) → BInv root st →
    frag ∈ subs root →
    BInv root st2 ∧ st.seen.length ≤ st2.seen.length
  | 0, st, frag, st2, hok, _, _ => by
      rw [crawl] at hok
      cases hok
  | fuel + 1, st, frag, st2, hok, hInv, hfrag => by
      rw [crawl] at hok
      split at hok
      · cases hok
      · rename_i fs hfs
        split at hok
        · cases hok
        · rename_i st1 kids hreg
          obtain ⟨hInv1, hseen1, hkids⟩ :=
            registerAll_spec hreg hInv (childFragments_sub hfs hfrag)
          obtain ⟨hI2, hlen⟩ := crawlKids_pres
            (fun st' g st'' hg hI hs => crawl_pres hs hI hg)
            hok hInv1 (fun kg h => (hkids kg h).2.1)
          refine ⟨hI2, ?_⟩
          rw [hseen1] at hlen
          exact hlen

theorem seen_lt_card {root : J} {st : BState} (hInv : BInv root st) {key : J}
    (hk : key ∈ (subs root).map canon) (hn : key ∉ st.seen) :
    st.seen.length < ((subs root).map canon).toFinset.card := by
  have h1 : st.seen.toFinset.card = st.seen.length :=
    List.toFinset_card_of_nodup hInv.seenNodup
  have h2 : insert key st.seen.toFinset ⊆ ((subs root).map canon).toFinset := by
    intro x hx
    rcases Finset.mem_insert.1 hx with h | h
    · cases h
      exact List.mem_toFinset.2 hk
    · exact List.mem_toFinset.2 (hInv.seenSub x (List.mem_toFinset.1 h))
  have h3 : (insert key st.seen.toFinset).card = st.seen.length + 1 := by
    rw [Finset.card_insert_of_not_mem (fun hm => hn (List.mem_toFinset.1 hm)), h1]
  have h4 := Finset.card_le_card h2
  omega

theorem crawlKids_some {root : J} {n : Nat}
    {step : BState → J → Option (Except PyErr BState)}
    (hstep : ∀ st g st', g ∈ subs root → BInv root st →
      step st g = some (.ok st') →
      BInv root st' ∧ st.seen.length ≤ st'.seen.length)
    (hsome : ∀ st g, g ∈ subs root → BInv root st →
      ((subs root).map canon).toFinset.card - st.seen.length < n →
      (step st g).isSome = true) :
    ∀ {kids : List (J × J)} {st : BState},
    BInv root st → (∀ kg ∈ kids, kg.2 ∈ subs root) →
    ((subs root).map canon).toFinset.card - st.seen.length ≤ n →
    (crawlKids step st kids).isSome = true
  | [], st, _, _, _ => by
      rw [crawlKids]
      rfl
  | kg :: rest, st, hInv, hkids, hn => by
      rw [crawlKids]
      split
      · exact crawlKids_some hstep hsome hInv
          (fun kg2 h => hkids kg2 (List.mem_cons_of_mem _ h)) hn
      · rename_i hseen
        have hg : kg.2 ∈ subs root := hkids kg (List.mem_cons_self _ _)
        have hkey : canon kg.2 ∈ (subs root).map canon :=
          List.mem_map_of_mem canon hg
        have hlt := seen_lt_card hInv hkey hseen
        have hInv1 := BInv_pushSeen hInv hkey hseen
        have hx : ({ st with seen := st.seen ++ [canon kg.2] } :
            BState).seen.length = st.seen.length + 1 := by
          simp
        have hsome1 := hsome _ kg.2 hg hInv1 (by rw [hx]; omega)
        cases hres : step { st with seen := st.seen ++ [canon kg.2] } kg.2 with
        | none =>
            rw [hres] at hsome1
            simp at hsome1
        | some r =>
            cases r with
            | error e => rfl
            | ok st3 =>
                show (crawlKids step st3 rest).isSome = true
                obtain ⟨hI3, hlen3⟩ := hstep _ _ _ hg hInv1 hres
                refine crawlKids_some hstep hsome hI3
                  (fun kg2 h => hkids kg2 (List.mem_cons_of_mem _ h)) ?_
                rw [hx] at hlen3
                omega

theorem crawl_some {root : J} : ∀ {fuel : Nat} {st : BState} {frag : J},
    BInv root st → frag ∈ subs root →
    ((subs root).map canon).toFinset.card - st.seen.length < fuel →
    (crawl root fuel st frag).isSome = true
  | 0, st, frag, _, _, hn => absurd hn (Nat.not_lt_zero _)
  | fuel + 1, st, frag, hInv, hfrag, hn => by
      rw [crawl]
      split
      · rfl
      · rename_i fs hcf
        split
        · rfl
        · rename_i st1 kids hreg
          obtain ⟨hInv1, hseen1, hkids⟩ :=
            registerAll_spec hreg hInv (childFragments_sub hcf hfrag)
          refine crawlKids_some
            (fun st' g st'' hg hI hs => crawl_pres hs hI hg)
            (fun st' g hg hI hc => crawl_some hI hg hc)
            hInv1 (fun kg h => (hkids kg h).2.1) ?_
          rw [hseen1]
          omega

theorem build_inv_init {l : List (String × J)} :
    BInv (J.obj l) ⟨[⟨canon (J.obj l), J.obj l, []⟩], []⟩ := by
  refine ⟨?_, ?_, ?_, ?_, ?_, List.nodup_nil, ?_⟩
  · intro nd hnd
    cases List.mem_singleton.1 hnd
    rfl
  · intro nd hnd
    cases List.mem_singleton.1 hnd
    exact subs_self _
  · intro nd hnd
    cases List.mem_singleton.1 hnd
    rfl
  · simp
  · intro nd hnd
    cases List.mem_singleton.1 hnd
    exact List.nodup_nil
  · intro k hk
    exact absurd hk (List.not_mem_nil _)

theorem build_terminates (doc : J) : (build doc (regBound doc)).isSome = true := by
  cases doc with
  | obj l =>
      rw [build]
      exact crawl_some build_inv_init (subs_self _) (by rw [regBound]; omega)
  | null => rfl
  | bool b => rfl
  | int n => rfl
  | flt m e => rfl
  | str s => rfl
  | arr xs => rfl

instance : DecidableEq (Except PyErr BState) := fun a b =>
  match a, b with
  | .error e, .error f => decidable_of_iff (e = f) (by simp)
  | .error _, .ok _ => isFalse (by simp)
  | .ok _, .error _ => isFalse (by simp)
  | .ok s, .ok t => decidable_of_iff (s = t) (by simp)

/-- The spec's cycle scenario: a document whose definition `Obj` has a
single `anyOf` alternative referring back to itself. -/
def cycDoc : J :=
  J.obj [("$ref", J.str "#/definitions/Obj"),
         ("definitions", J.obj [("Obj",
            J.obj [("anyOf",
               J.arr [J.obj [("$ref", J.str "#/definitions/Obj")]])])])]

/-- The state graph construction reaches on `cycDoc` (evaluated). -/
def stCyc : BState :=
  match build cycDoc (regBound cycDoc) with
  | some (.ok st) => st
  | _ => ⟨[], []⟩

/-- C1: graph construction terminates on every document — with fuel
`regBound doc` (one more than the number of distinct subfragment hashes),
`build` never runs out of fuel, because `initialize_child` registers every
node under its content hash strictly before `crawl` expands its children,
so each recursion strictly grows the `seen` set of hashes, which is bounded
by the finite set of subfragment hashes.  In particular, on the
self-referential `anyOf` definition cycle `cycDoc`, construction completes
(no exception), with a finite registry of exactly 3 nodes whose parent
lists are finite (lengths 0, 2 and 1). -/
theorem c1_construction_terminates :
    (∀ doc : J, (build doc (regBound doc)).isSome = true) ∧
    build cycDoc (regBound cycDoc) = some (.ok stCyc) ∧
    stCyc.registry.length = 3 ∧
    stCyc.registry.map (fun nd => nd.pars.length) = [0, 2, 1] :=
  ⟨build_terminates, by decide, by decide, by decide⟩

theorem addParent_mem {st : BState} {key selfKey : J}
    (h : ∃ nd ∈ st.registry, nd.key = key) :
    ∃ nd ∈ (addParent st key selfKey).registry,
      nd.key = key ∧ selfKey ∈ nd.pars := by
  obtain ⟨nd0, hnd0, hk0⟩ := h
  refine ⟨bumpNode key selfKey nd0, List.mem_map_of_mem _ hnd0, ?_, ?_⟩
  · rw [bumpNode_key, hk0]
  · unfold bumpNode
    rw [if_pos hk0]
    by_cases hp : selfKey ∈ nd0.pars
    · rw [if_pos hp]
      exact hp
    · rw [if_neg hp]
      simp

/-- After `initialize_child`, the calling node is recorded among the
child node's parents. -/
theorem registerChild_parent {selfKey f : J} {st st2 : BState} {kg : J × J}
    (hok : registerChild selfKey f st = .ok (st2, kg)) :
    ∃ nd ∈ st2.registry, nd.key = canon f ∧ selfKey ∈ nd.pars := by
  unfold registerChild at hok
  cases hfind : findNode st.registry (canon f) with
  | some nd =>
      rw [hfind] at hok
      simp only [Except.ok.injEq, Prod.mk.injEq] at hok
      obtain ⟨hst, _⟩ := hok
      subst hst
      exact addParent_mem ⟨nd, (findNode_some hfind).1, (findNode_some hfind).2⟩
  | none =>
      rw [hfind] at hok
      cases f with
      | obj lf =>
          simp only [Except.ok.injEq, Prod.mk.injEq] at hok
          obtain ⟨hst, _⟩ := hok
          subst hst
          refine addParent_mem ⟨⟨canon (J.obj lf), J.obj lf, []⟩, ?_, rfl⟩
          exact List.mem_append.2 (Or.inr (List.mem_singleton.2 rfl))
      | null => cases hok
      | bool b => cases hok
      | int n => cases hok
      | flt m e => cases hok
      | str s2 => cases hok
      | arr xs => cases hok

/-- The two-occurrence scenario: the fragment `{"type": "string"}` appears
under two structurally different parents. -/
def sharedFrag : J := J.obj [("type", J.str "string")]

def parentP : J :=
  J.obj [("type", J.str "object"),
         ("properties", J.obj [("c", sharedFrag)])]

def parentQ : J :=
  J.obj [("type", J.str "object"),
         ("properties", J.obj [("d", sharedFrag)])]

def dupDoc : J :=
  J.obj [("type", J.str "object"),
         ("properties", J.obj [("p", parentP), ("q", parentQ)])]

/-- The state graph construction reaches on `dupDoc` (evaluated). -/
def stDup : BState :=
  match build dupDoc (regBound dupDoc) with
  | some (.ok st) => st
  | _ => ⟨[], []⟩

/-- C2: a structurally identical fragment occurring at several paths
resolves to a single registry node.  In every completed build the registry
holds at most one node per content hash and no node records a parent twice;
`initialize_child` always records the caller among the child's parents; and
in the concrete two-occurrence document `dupDoc`, the shared fragment
`{"type": "string"}` owns exactly one node, whose parent list is precisely
the two distinct parents that reached it. -/
theorem c2_dedup_parents :
    (∀ (doc : J) (fuel : Nat) (st : BState),
      build doc fuel = some (.ok st) →
      (st.registry.map SNode.key).Nodup ∧ ∀ nd ∈ st.registry, nd.pars.Nodup) ∧
    (∀ (selfKey f : J) (st st2 : BState) (kg : J × J),
      registerChild selfKey f st = .ok (st2, kg) →
      ∃ nd ∈ st2.registry, nd.key = canon f ∧ selfKey ∈ nd.pars) ∧
    build dupDoc (regBound dupDoc) = some (.ok stDup) ∧
    (stDup.registry.filter (fun nd => nd.key = canon sharedFrag)).map
        (fun nd => nd.pars) = [[canon parentP, canon parentQ]] ∧
    canon parentP ≠ canon parentQ := by
  refine ⟨?_, ?_, by decide, by decide, by decide⟩
  · intro doc fuel st hok
    cases doc with
    | obj l =>
        rw [build] at hok
        have h := crawl_pres hok build_inv_init (subs_self _)
        exact ⟨h.1.regNodup, h.1.parsNodup⟩
    | null => cases hok
    | bool b => cases hok
    | int n => cases hok
    | flt m e => cases hok
    | str s => cases hok
    | arr xs => cases hok
  · intro selfKey f st st2 kg hok
    exact registerChild_parent hok

/-- Witness for the hypothesis-bearing parts of `c2_dedup_parents`,
instantiated on the concrete build of `dupDoc`: its registry has pairwise
distinct keys and duplicate-free parent lists. -/
theorem c2_dedup_parents_witness :
    (stDup.registry.map SNode.key).Nodup ∧
      ∀ nd ∈ stDup.registry, nd.pars.Nodup :=
  c2_dedup_parents.1 dupDoc (regBound dupDoc) stDup (by decide)

/-- Modelled from the spec: `utils.isnumeric` is imported by `core.py` but
missing from the provided `utils.py`.  Per the spec ("value must be
numeric; booleans are explicitly excluded from the numeric check even where
representable as 0/1") and the test expectations (booleans are invalid for
`{"type": "number"}`), a value is numeric iff it is an int or a float; the
numeric value is `m / 2^e`.  Returns `none` on everything else, booleans
included. -/
def numView : J → Option (Int × Nat)
  | .int n => some (n, 0)
  | .flt m e => some (m, e)
  | _ => none

/-- Numeric view used on the right-hand side of a Python comparison or
equality: there booleans do take part (Python `bool` is an `int`), so
`True` counts as 1 and `False` as 0. -/
def numViewB : J → Option (Int × Nat)
  | .int n => some (n, 0)
  | .flt m e => some (m, e)
  | .bool b => some (if b then 1 else 0, 0)
  | _ => none

/-- Exact comparison of `a.1 / 2^a.2 < b.1 / 2^b.2` by cross-multiplying. -/
def ltQ (a b : Int × Nat) : Bool := a.1 * (2 : Int) ^ b.2 < b.1 * (2 : Int) ^ a.2

def gtQ (a b : Int × Nat) : Bool := ltQ b a

def leQ (a b : Int × Nat) : Bool := !(ltQ b a)

def geQ (a b : Int × Nat) : Bool := !(ltQ a b)

def numEqQ (a b : Int × Nat) : Bool :=
  a.1 * (2 : Int) ^ b.2 == b.1 * (2 : Int) ^ a.2

mutual

/-- Python `==` on JSON-compatible values: numeric kinds (bool included)
compare by value, strings by text, lists pointwise, dicts by key set and
per-key value equality; values of different non-numeric kinds are unequal,
never an error. -/
def pyEqB : J → J → Bool
  | .null, .null => true
  | .bool a, .bool b => a == b
  | .bool a, .int n => (if a then (1 : Int) else 0) == n
  | .bool a, .flt m e => numEqQ (if a then 1 else 0, 0) (m, e)
  | .int n, .bool b => n == (if b then 1 else 0)
  | .flt m e, .bool b => numEqQ (m, e) (if b then 1 else 0, 0)
  | .int a, .int b => a == b
  | .int a, .flt m e => numEqQ (a, 0) (m, e)
  | .flt m e, .int b => numEqQ (m, e) (b, 0)
  | .flt m e, .flt m2 e2 => numEqQ (m, e) (m2, e2)
  | .str a, .str b => a.data == b.data
  | .arr xs, .arr ys => pyEqLB xs ys
  | .obj l, .obj m2 => l.length == m2.length && pyEqEB l m2
  | _, _ => false
termination_by structural a => a

def pyEqLB : List J → List J → Bool
  | [], [] => true
  | x :: xs, y :: ys => pyEqB x y && pyEqLB xs ys
  | _, _ => false
termination_by structural l => l

def pyEqEB : List (String × J) → List (String × J) → Bool
  | [], _ => true
  | (k, v) :: rest, m2 =>
      (match lookupJ m2 k with
       | some w => pyEqB v w
       | none => false) && pyEqEB rest m2
termination_by structural l => l

end

def startsCh : List Char → List Char → Bool
  | [], _ => true
  | _ :: _, [] => false
  | a :: as, b :: bs => a == b && startsCh as bs

def subChars : List Char → List Char → Bool
  | needle, [] => needle.isEmpty
  | needle, c :: rest => startsCh needle (c :: rest) || subChars needle rest

/-- Python `v in container`: lists and dicts test membership with `==`
(dicts over their keys), strings test substring containment, anything else
raises `TypeError`. -/
def pyIn (v : J) (container : J) : Except PyErr Bool :=
  match container with
  | .arr xs => .ok (xs.any (fun x => pyEqB v x))
  | .obj l => .ok (l.any (fun p => pyEqB v (J.str p.1)))
  | .str s =>
      match v with
      | .str t => .ok (subChars t.data s.data)
      | _ => .error .typeError
  | _ => .error .typeError

/-- Sequence two checks: the first raised exception propagates. -/
def seqE (a b : Except PyErr Unit) : Except PyErr Unit :=
  match a with
  | .error e => .error e
  | .ok _ => b

/-- One conditional bound check, `if key in cls_schema and <bad comparison>:
raise SchemaValidationError`.  Comparing against a non-numeric, non-boolean
bound raises `TypeError`, as the Python comparison operator would. -/
def boundCheck (cs : List (String × J)) (key : String) (vm : Int × Nat)
    (bad : Int × Nat → Int × Nat → Bool) : Except PyErr Unit :=
  match lookupJ cs key with
  | none => .ok ()
  | some j =>
      match numViewB j with
      | none => .error .typeError
      | some bm => if bad vm bm then .error .schemaValidation else .ok ()

/-- The four bound checks shared by `NumberTypeValidator.validate` and
`IntegerTypeValidator.validate`, in source order: inclusive `minimum` and
`maximum`, strict `exclusiveMinimum` and `exclusiveMaximum`. -/
def numBounds (cs : List (String × J)) (vm : Int × Nat) : Except PyErr Unit :=
  seqE (boundCheck cs "minimum" vm ltQ)
    (seqE (boundCheck cs "maximum" vm gtQ)
      (seqE (boundCheck cs "exclusiveMinimum" vm leQ)
        (boundCheck cs "exclusiveMaximum" vm geQ)))

/-- Python `int(x) == x` for a numeric value `m / 2^e`. -/
def isIntVal : J → Bool
  | .int _ => true
  | .flt m e => m % (2 : Int) ^ e == 0
  | _ => false

/-- The `validate` method of each validator class.  Several methods call
attributes that do not exist and therefore raise `AttributeError` as soon
as they run: `ObjectValidator.validate` calls `self.get` (no such method on
`Validator`), and `RefValidator`, `AnyOfValidator`, `OneOfValidator`,
`AllOfValidator` and `NotValidator` call `self.make_child` (no such method
either; the defined method is `init_child`).  `AnyOfValidator`'s and
`OneOfValidator`'s bare `except:` swallows that `AttributeError` per child;
`NotValidator`'s `except SchemaValidationError:` does not.  Consequently no
validator ever successfully recurses into a child validation. -/
def classValidate (root : J) : VClass → List (String × J) → J →
    Except PyErr Unit
  | .objectV, _, v =>
      match v with
      | .obj _ => .error .attrError
      | _ => .error .schemaValidation
  | .arrayV, cs, v =>
      match v with
      | .arr xs =>
          seqE (boundCheck cs "minItems" (xs.length, 0) ltQ)
            (seqE (boundCheck cs "maxItems" (xs.length, 0) gtQ)
              (match lookupJ cs "numItems" with
               | none => .ok ()
               | some j =>
                   if pyEqB (J.int xs.length) j then .ok ()
                   else .error .schemaValidation))
      | _ => .error .schemaValidation
  | .numberV, cs, v =>
      match numView v with
      | none => .error .schemaValidation
      | some vm => numBounds cs vm
  | .integerV, cs, v =>
      match numView v with
      | none => .error .schemaValidation
      | some vm =>
          if isIntVal v then numBounds cs vm else .error .schemaValidation
  | .stringV, cs, v =>
      match v with
      | .str s =>
          seqE (boundCheck cs "minLength" (s.data.length, 0) ltQ)
            (boundCheck cs "maxLength" (s.data.length, 0) gtQ)
      | _ => .error .schemaValidation
  | .nullV, _, v =>
      match v with
      | .null => .ok ()
      | _ => .error .schemaValidation
  | .booleanV, _, v =>
      match v with
      | .bool _ => .ok ()
      | _ => .error .schemaValidation
  | .enumV, cs, v =>
      match lookupJ cs "enum" with
      | some ev =>
          (match pyIn v ev with
           | .error e => .error e
           | .ok b => if b then .ok () else .error .schemaValidation)
      | none => .error .keyError
  | .multiV, _, _ => .error .notImplemented
  | .refV, cs, _ =>
      match lookupJ cs "$ref" with
      | some r =>
          (match resolveRef root r with
           | .error e => .error e
           | .ok _ => .error .attrError)
      | none => .error .keyError
  | .anyOfV, cs, _ =>
      match lookupJ cs "anyOf" with
      | some v2 =>
          (match pyIter v2 with
           | .error e => .error e
           | .ok _ => .ok ())
      | none => .error .keyError
  | .oneOfV, cs, _ =>
      match lookupJ cs "oneOf" with
      | some v2 =>
          (match pyIter v2 with
           | .error e => .error e
           | .ok _ => .error .schemaValidation)
      | none => .error .keyError
  | .allOfV, cs, _ =>
      match lookupJ cs "allOf" with
      | some v2 =>
          (match pyIter v2 with
           | .error e => .error e
           | .ok cs2 => if cs2.isEmpty then .ok () else .error .attrError)
      | none => .error .keyError
  | .notV, cs, _ =>
      match lookupJ cs "not" with
      | some _ => .error .attrError
      | none => .error .keyError

/-- `Schema.validate`: run every attached validator in match order; the
first exception aborts. -/
def runValidators (root : J) : List (VClass × List (String × J)) → J →
    Except PyErr Unit
  | [], _ => .ok ()
  | (c, cs) :: rest, v => seqE (classValidate root c cs v) (runValidators root rest v)

/-- Validate a value against the root schema document: build the root
node's validators and run them. -/
def validateValue (doc v : J) : Except PyErr Unit :=
  match doc with
  | .obj l => runValidators doc (validatorsOf l) v
  | _ => .error .attrError

def anyOfDoc : J :=
  J.obj [("anyOf", J.arr [J.obj [("type", J.str "integer")],
                          J.obj [("type", J.str "string")]])]

def oneOfDoc : J :=
  J.obj [("oneOf", J.arr [J.obj [("type", J.str "number")],
                          J.obj [("type", J.str "integer")]])]

def objDoc : J :=
  J.obj [("type", J.str "object"),
         ("properties", J.obj [("a", J.obj [("type", J.str "string")])]),
         ("required", J.arr [J.str "a"])]

def arrDoc : J :=
  J.obj [("type", J.str "array"), ("items", J.obj [("type", J.str "number")])]

def intMinDoc : J :=
  J.obj [("type", J.str "integer"), ("minimum", J.int 0)]

def enumDoc : J := J.obj [("enum", J.arr [J.int 0, J.int 1])]

/-- C4 (code-bug evidence): the claim says AnyOf validation fails when zero
alternatives match, rejecting `true` for
`{"anyOf": [{"type": "integer"}, {"type": "string"}]}`.  The code cannot do
this: `AnyOfValidator.validate` calls the nonexistent `self.make_child`,
the per-child bare `except:` swallows the resulting `AttributeError`, and
the method has no `raise` after the loop — so every value is accepted,
`true` included. -/
theorem c4_anyof_accepts_everything :
    validateValue anyOfDoc (J.bool true) = .ok () ∧
    validateValue anyOfDoc (J.int 5) = .ok () ∧
    validateValue anyOfDoc (J.str "hi") = .ok () :=
  ⟨rfl, rfl, rfl⟩

/-- C5 (code-bug evidence): the claim says OneOf succeeds iff exactly one
alternative matches, accepting `2.5` for
`{"oneOf": [{"type": "number"}, {"type": "integer"}]}`.  The code cannot do
this: `OneOfValidator.validate` calls the nonexistent `self.make_child` for
each child, the bare `except:` swallows the `AttributeError`, the match
count stays 0, and `count != 1` raises — so every value is rejected, the
claimed-accepted `2.5` included (`5` is rejected too, but with count 0, not
count 2). -/
theorem c5_oneof_rejects_everything :
    validateValue oneOfDoc (J.flt 5 1) = .error .schemaValidation ∧
    validateValue oneOfDoc (J.int 5) = .error .schemaValidation :=
  ⟨rfl, rfl⟩

/-- C6 (code-bug evidence): the claim says the object schema accepts
`{"a": "x"}` and rejects `{}` with a missing-required-property error.  The
code cannot do this: after the dict check, `ObjectValidator.validate`
evaluates `self.get('required', [])`, but `Validator` has no `get` method,
so every dict value raises `AttributeError` (and `for key, val in
obj.items:` with the method not called would raise `TypeError` next).  Only
the non-dict rejection works. -/
theorem c6_object_validate_raises :
    validateValue objDoc (J.obj [("a", J.str "x")]) = .error .attrError ∧
    validateValue objDoc (J.obj []) = .error .attrError ∧
    validateValue objDoc (J.int 3) = .error .schemaValidation :=
  ⟨rfl, rfl, rfl⟩

/-- C7 (code-bug evidence): the claim (and the repository's own test list)
says `{"type": "array", "items": {"type": "number"}}` rejects `[1, "x"]`.
The code cannot do this: `ArrayValidator.validate` checks only the list
type and the `minItems`/`maxItems`/`numItems` counts and never validates
elements against the `items` schema, so `[1, "x"]` passes. -/
theorem c7_array_items_not_validated :
    validateValue arrDoc (J.arr [J.int 1, J.str "x"]) = .ok () ∧
    validateValue arrDoc (J.arr [J.int 1, J.flt 5 1]) = .ok () :=
  ⟨rfl, rfl⟩

/-- C8 (code-bug evidence): the claim says `{"type": "integer",
"minimum": 0}` rejects numeric values below 0.  The code cannot do this:
`IntegerTypeValidator.recognized_keys` misspells `'minimum'` as
`'mimimum'`, so `_initialize_validators` filters the `minimum` key out of
the validator's `cls_schema` and the bound check in `validate` (which
correctly reads `'minimum'`) never finds it; `-5` is accepted.  The
truncation requirement and the inclusive acceptance of the bound itself do
hold. -/
theorem c8_integer_minimum_dropped :
    validateValue intMinDoc (J.int (-5)) = .ok () ∧
    validateValue intMinDoc (J.int 0) = .ok () ∧
    validateValue intMinDoc (J.flt 5 1) = .error .schemaValidation ∧
    validatorsOf [("type", J.str "integer"), ("minimum", J.int 0)] =
      [(.integerV, [("type", J.str "integer")])] :=
  ⟨rfl, rfl, rfl, rfl⟩

/-- C9 counterexample: the claim says Enum membership uses exact value
equality with no type coercion, so that a boolean is not a member of the
enum list `[0, 1]`.  But `EnumValidator.validate` tests `obj in
self.schema['enum']`, which is Python `==` membership, and Python equates
`True` with `1`: validating `True` against `{"enum": [0, 1]}` succeeds even
though `True` is not exactly equal to either listed value. -/
theorem c9_enum_coerces_bool :
    validateValue enumDoc (J.bool true) = .ok () ∧
    J.bool true ∉ [J.int 0, J.int 1] :=
  ⟨rfl, by decide⟩

/-- C9 as amended: for every fragment carrying an enum list and every
value, Enum validation succeeds iff the value is a member of the literal
enumerated list under Python value equality `==` — which equates booleans
with the integers 0 and 1 (so `True` is accepted for `{"enum": [0, 1]}`),
and is exact (no coercion) between values of other distinct kinds. -/
theorem c9_enum_python_membership (xs : List J) (v : J) :
    validateValue (J.obj [("enum", J.arr xs)]) v = .ok () ↔
      xs.any (fun x => pyEqB v x) = true := by
  have hv : validateValue (J.obj [("enum", J.arr xs)]) v =
      seqE (if xs.any (fun x => pyEqB v x) then .ok ()
            else .error .schemaValidation) (.ok ()) := rfl
  rw [hv]
  cases h : xs.any (fun x => pyEqB v x)
  · simp [h, seqE]
  · simp [h, seqE]

/-- C10: a fragment matching zero validator categories (for example the
empty mapping, or one holding only ignored metadata keys such as
`description`) validates every value: `Schema.validate` loops over an empty
validator list and returns without raising. -/
theorem c10_zero_validators_pass (l : List (String × J)) (v : J)
    (h : validatorsOf l = []) : validateValue (J.obj l) v = .ok () := by
  show runValidators (J.obj l) (validatorsOf l) v = .ok ()
  rw [h]
  rfl

/-- Witness for `c10_zero_validators_pass` at the fragment
`{"description": "foo"}`, which matches no validator class, and the value 3. -/
theorem c10_zero_validators_pass_witness :
    validateValue (J.obj [("description", J.str "foo")]) (J.int 3) = .ok () :=
  c10_zero_validators_pass [("description", J.str "foo")] (J.int 3) rfl
